import Mathlib

/-!
A verification development for the CHIP-0x08 disassembler repository
(disasm.h). It embeds the opcode X-macro table of the source header, the
instruction-decoder contract, the register-value join of the abstract
interpretation pass, and the worklist control-flow explorer described by
the design document. Components whose implementation is absent from the
header (the explorer and the register tracker live in empty classes) are
modelled from the spec and marked as such on their definitions.
-/

set_option maxRecDepth 40000

namespace CHIP8

/-! ### Instruction word bitfields (disasm.h field comment block) -/

/-- Opcode class identifier: upper 4 bits of the high byte of the word. -/
def u (w : Nat) : Nat := w / 4096 % 16

/-- Lower 4 bits of the high byte of the word. -/
def x (w : Nat) : Nat := w / 256 % 16

/-- Upper 4 bits of the low byte of the word. -/
def y (w : Nat) : Nat := w / 16 % 16

/-- Lowest 4 bits of the word. -/
def n (w : Nat) : Nat := w % 16

/-- Lowest 8 bits of the word. -/
def kk (w : Nat) : Nat := w % 256

/-- Lowest 12 bits of the word. -/
def nnn (w : Nat) : Nat := w % 4096

theorem kk_lt (w : Nat) : kk w < 256 := Nat.mod_lt _ (by norm_num)

theorem u_lt (w : Nat) : u w < 16 := Nat.mod_lt _ (by norm_num)

/-! ### The source opcode table

Embedded from the OPCODE_TABLE X-macro of disasm.h: each entry is the
mnemonic string together with its guard, in source order. Guards are kept
exactly as written in the source, including the unconditional (true)
guards of the stubbed entries. -/

def OPCODE_TABLE : List (String × (Nat → Bool)) :=
  [ ("cls", fun w => u w == 0x0 && nnn w == 0xE0),
    ("drw Vx, Vy, nibble", fun _ => true),
    ("jp, V0, addr", fun w => u w == 0xB),
    ("sys addr", fun w => u w == 0x0 && nnn w != 0xE0),
    ("ret", fun w => u w == 0x0 && nnn w == 0xEE),
    ("jp addr", fun w => u w == 0x1),
    ("call addr", fun w => u w == 0x2),
    ("se Vx, byte", fun _ => true),
    ("sne Vx, byte", fun _ => true),
    ("sne Vx, Vy", fun _ => true),
    ("sne Vx, Vy", fun _ => true),
    ("skp Vx", fun _ => true),
    ("sknp Vx", fun _ => true),
    ("sne Vx, Vy", fun _ => true),
    ("ld Vx, Vy", fun _ => true),
    ("ld I, addr", fun _ => true),
    ("ld Vx, DT", fun _ => true),
    ("ld Vx, K", fun _ => true),
    ("ld DT, Vx", fun _ => true),
    ("ld ST, Vx", fun _ => true),
    ("ld F, Vx", fun _ => true),
    ("ld B, Vx", fun _ => true),
    ("ld [I], Vx", fun _ => true),
    ("ld Vx, [I]", fun _ => true),
    ("ld Vx, byte", fun _ => true),
    ("add Vx, byte", fun _ => true),
    ("add Vx, Vy", fun _ => true),
    ("add i, Vx", fun _ => true),
    ("sub Vx, Vy", fun _ => true),
    ("subn Vx, Vy", fun _ => true),
    ("or Vx, Vy", fun _ => true),
    ("and Vx, Vy", fun _ => true),
    ("xor Vx, Vy", fun _ => true),
    ("shr Vx \x7b, Vy\x7d", fun _ => true),
    ("shl Vx \x7b, Vy\x7d", fun _ => true),
    ("rnd Vx, byte", fun _ => true) ]

/-- First-match classification over the source opcode table: the word is
classified by the first entry whose guard evaluates to true. -/
def classify (w : Nat) : Option String :=
  (OPCODE_TABLE.find? (fun e => e.2 w)).map Prod.fst

/-- Helper: the first-match classification collapses to a two-way split
between the clear-screen entry and the unconditionally guarded drw entry. -/
theorem classify_eq (w : Nat) :
    classify w =
      if u w = 0x0 ∧ nnn w = 0xE0 then some "cls" else some "drw Vx, Vy, nibble" := by
  by_cases h : u w = 0x0 ∧ nnn w = 0xE0
  · rw [if_pos h]
    unfold classify OPCODE_TABLE
    rw [List.find?_cons_of_pos]
    · rfl
    · simp only [h.1, h.2]
      rfl
  · rw [if_neg h]
    unfold classify OPCODE_TABLE
    rw [List.find?_cons_of_neg, List.find?_cons_of_pos]
    · rfl
    · rfl
    · simp only [Bool.and_eq_true, beq_iff_eq]
      exact fun hc => h hc

/-! ### The spec decoder

The InstructionDecoder component of the design document. The source
repository only documents the instruction encodings in the X-macro (whose
guards are stubbed); the classification below follows the priority-ordered
match of the spec. -/

/-- Control-transfer kinds of a decoded instruction, from the data model of
the design document. -/
inductive Kind where
  | Sequential
  | SkipConditional
  | Call
  | Return
  | JumpAbsolute
  | JumpIndirect
  | SysCall
  | ClearScreen
  | Unknown
  deriving DecidableEq, Repr

/-- Modelled from the spec: priority-ordered classification of a 16-bit
word (first match the primary opcode class u, then disambiguate by the low
byte or the low nibble), returning none for unrecognized bit patterns.
The working InstructionDecoder is missing from the source header (the
disassembler classes are empty), so the classification is taken from the
design document. -/
def classifyFields : Nat → Nat → Nat → Option Kind
  | 0x0, _, kkv =>
    if kkv = 0xE0 then some Kind.ClearScreen
    else if kkv = 0xEE then some Kind.Return
    else some Kind.SysCall
  | 0x1, _, _ => some Kind.JumpAbsolute
  | 0x2, _, _ => some Kind.Call
  | 0x3, _, _ => some Kind.SkipConditional
  | 0x4, _, _ => some Kind.SkipConditional
  | 0x5, nv, _ => if nv = 0 then some Kind.SkipConditional else none
  | 0x6, _, _ => some Kind.Sequential
  | 0x7, _, _ => some Kind.Sequential
  | 0x8, nv, _ =>
    if nv = 0 ∨ nv = 1 ∨ nv = 2 ∨ nv = 3 ∨ nv = 4 ∨ nv = 5 ∨ nv = 6 ∨
        nv = 7 ∨ nv = 14 then some Kind.Sequential else none
  | 0x9, nv, _ => if nv = 0 then some Kind.SkipConditional else none
  | 0xA, _, _ => some Kind.Sequential
  | 0xB, _, _ => some Kind.JumpIndirect
  | 0xC, _, _ => some Kind.Sequential
  | 0xD, _, _ => some Kind.Sequential
  | 0xE, _, kkv =>
    if kkv = 0x9E ∨ kkv = 0xA1 then some Kind.SkipConditional else none
  | 0xF, _, kkv =>
    if kkv = 0x07 ∨ kkv = 0x0A ∨ kkv = 0x15 ∨ kkv = 0x18 ∨ kkv = 0x1E ∨
        kkv = 0x29 ∨ kkv = 0x33 ∨ kkv = 0x55 ∨ kkv = 0x65 then
      some Kind.Sequential
    else none
  | _, _, _ => none

/-- Classification of a word by its extracted fields. -/
def classifySpec (w : Nat) : Option Kind := classifyFields (u w) (n w) (kk w)

/-- Total decoder: unrecognized bit patterns fall back to Kind.Unknown
rather than failing. -/
def decode (w : Nat) : Kind := (classifySpec w).getD Kind.Unknown

/-- C10: in the opcode table of the source, classification is first-match;
the drw entry carries the constant-true guard and precedes every entry but
the clear-screen one, so every word failing the clear-screen guard
classifies as drw and all entries after drw are unreachable. -/
theorem table_first_match_drw (w : Nat) :
    (¬ (u w = 0x0 ∧ nnn w = 0xE0) → classify w = some "drw Vx, Vy, nibble")
    ∧ (classify w = some "cls" ∨ classify w = some "drw Vx, Vy, nibble")
    ∧ (OPCODE_TABLE.map Prod.fst).take 7 =
        ["cls", "drw Vx, Vy, nibble", "jp, V0, addr", "sys addr", "ret",
          "jp addr", "call addr"] := by
  refine ⟨?_, ?_, rfl⟩
  · intro h
    rw [classify_eq, if_neg h]
  · rw [classify_eq]
    by_cases h : u w = 0x0 ∧ nnn w = 0xE0
    · left; rw [if_pos h]
    · right; rw [if_neg h]

/-- Witness for C10 at the concrete word 0x1234 (a jp-addr encoding): the
clear-screen guard fails, so first-match classification yields drw. -/
theorem table_first_match_drw_w :
    ¬ (u 0x1234 = 0x0 ∧ nnn 0x1234 = 0xE0)
    ∧ classify 0x1234 = some "drw Vx, Vy, nibble" :=
  ⟨by decide, (table_first_match_drw 0x1234).1 (by decide)⟩

/-- C5: the word 0x00EE (the return encoding) does not classify as a
return under the first-match reading of the source table: the drw entry
with its constant-true guard precedes the ret entry (and even without drw,
the sys guard nnn != 0xE0 precedes and matches). The spec decoder, which
matches the return encoding before falling back to SysCall, classifies it
as Return. -/
theorem ret_encoding_misclassified :
    classify 0x00EE = some "drw Vx, Vy, nibble"
    ∧ decode 0x00EE = Kind.Return := by
  constructor
  · rw [classify_eq, if_neg (by decide)]
  · decide

/-- C6: the decoder is total. The source table classifies every 16-bit
word (the drw guard is unconditionally true), and the spec decoder either
recognizes the word or falls back to Kind.Unknown instead of failing; both
are pure Lean functions. -/
theorem decode_total (w : Nat) :
    (classify w).isSome = true
    ∧ ((classifySpec w).isSome = true ∨ decode w = Kind.Unknown)
    ∧ decode w = (classifySpec w).getD Kind.Unknown := by
  refine ⟨?_, ?_, rfl⟩
  · rw [classify_eq]
    by_cases h : u w = 0x0 ∧ nnn w = 0xE0
    · rw [if_pos h]; rfl
    · rw [if_neg h]; rfl
  · cases h : classifySpec w with
    | none => right; unfold decode; rw [h]; rfl
    | some k => left; rfl

/-! ### The register-value tracker

Modelled from the spec: the RegisterValueTracker is absent from the source
header (only the class documentation mentions tracking V0), so its value
domain and merge rules are taken from the design document: a tagged
variant, either an exact set of possible byte values or the Unknown top
element, with join as set union widened to Unknown past the cardinality
cap of 256. -/

/-- Possible values of the tracked register at a program point. -/
inductive RegisterValueSet where
  | Exact (s : Finset (Fin 256))
  | Unknown
  deriving DecidableEq

/-- Modelled from the spec: join is set union on exact operands, widening
to Unknown past the cardinality cap (256, the number of byte values), and
Unknown is absorbing. -/
def join : RegisterValueSet → RegisterValueSet → RegisterValueSet
  | RegisterValueSet.Exact a, RegisterValueSet.Exact b =>
      if 256 < (a ∪ b).card then RegisterValueSet.Unknown
      else RegisterValueSet.Exact (a ∪ b)
  | _, _ => RegisterValueSet.Unknown

/-- Modelled from the spec: assigning a statically known literal yields
the exact singleton. -/
def assign_literal (v : Fin 256) : RegisterValueSet := RegisterValueSet.Exact {v}

/-- Modelled from the spec: assigning from a non-literal source yields the
top element. -/
def assign_unknown : RegisterValueSet := RegisterValueSet.Unknown

theorem union_card_le (s t : Finset (Fin 256)) : (s ∪ t).card ≤ 256 := by
  have h := Finset.card_le_univ (s ∪ t)
  rwa [Fintype.card_fin] at h

/-- C8: join is commutative and idempotent, and on exact operands it is
exactly set union (over the 256-value byte domain the union cardinality
never exceeds the cap, so the widening branch of the definition cannot
demote an exact union). -/
theorem join_comm_idem (a b : RegisterValueSet) (s t : Finset (Fin 256)) :
    join a b = join b a
    ∧ join a a = a
    ∧ join (RegisterValueSet.Exact s) (RegisterValueSet.Exact t)
        = RegisterValueSet.Exact (s ∪ t) := by
  have hju : ∀ s1 t1 : Finset (Fin 256),
      join (RegisterValueSet.Exact s1) (RegisterValueSet.Exact t1)
        = RegisterValueSet.Exact (s1 ∪ t1) := by
    intro s1 t1
    simp only [join]
    rw [if_neg (by have := union_card_le s1 t1; omega)]
  refine ⟨?_, ?_, hju s t⟩
  · cases a with
    | Unknown => cases b <;> rfl
    | Exact s1 =>
      cases b with
      | Unknown => rfl
      | Exact t1 => rw [hju, hju, Finset.union_comm]
  · cases a with
    | Unknown => rfl
    | Exact s1 => rw [hju, Finset.union_self]

/-! ### The control-flow explorer

Modelled from the spec: the RecursiveDisassembler class in the source
header is empty, so the worklist traversal is taken from the design
document (pop an entry; discard if visited; otherwise union the register
sets of concurrently queued entries for the same address, decode, record,
and push the successors dictated by the control-transfer kind). -/

/-- A worklist entry: a traversal task. -/
structure Entry where
  addr : Nat
  regs : RegisterValueSet
  deriving DecidableEq

/-- Explorer state: worklist (insertion order), visited addresses, the
decoded program map in decode order, and the addresses whose indirect
branch was recorded unresolved. -/
structure ExpState where
  worklist : List Entry
  visited : List Nat
  program : List (Nat × Kind)
  unresolved : List Nat
  deriving DecidableEq

/-- Reads the big-endian 16-bit word at an address of the image, or none
when the address lies outside the loaded image. -/
def fetch (img : List Nat) (base addr : Nat) : Option Nat :=
  if base ≤ addr ∧ addr + 2 ≤ base + img.length then
    some (img.getD (addr - base) 0 * 256 + img.getD (addr - base + 1) 0)
  else none

/-- Modelled from the spec: register sets of concurrently queued entries
targeting the same unvisited address are unioned before decode proceeds. -/
def mergeRegs (a : Nat) (r : RegisterValueSet) (rest : List Entry) : RegisterValueSet :=
  (rest.filter (fun e => e.addr == a)).foldl (fun acc e => join acc e.regs) r

/-- Modelled from the spec: the register-tracking update applied before
pushing successors. A write of a literal to the tracked register V0 (6xkk
with x = 0) binds the exact singleton; a write from a non-literal source
(add, register copy or arithmetic, random, timer or memory loads into V0)
degrades to Unknown; every other instruction carries the set unchanged. -/
def regUpdate (w : Nat) (r : RegisterValueSet) : RegisterValueSet :=
  if u w = 0x6 ∧ x w = 0 then
    RegisterValueSet.Exact {(⟨kk w, kk_lt w⟩ : Fin 256)}
  else if (u w = 0x7 ∧ x w = 0)
      ∨ (u w = 0x8 ∧ x w = 0 ∧ (n w = 0 ∨ n w = 1 ∨ n w = 2 ∨ n w = 3 ∨
            n w = 4 ∨ n w = 5 ∨ n w = 6 ∨ n w = 7 ∨ n w = 14))
      ∨ (u w = 0xC ∧ x w = 0)
      ∨ (u w = 0xF ∧ x w = 0 ∧ (kk w = 0x07 ∨ kk w = 0x0A ∨ kk w = 0x65)) then
    RegisterValueSet.Unknown
  else r

/-- Ascending enumeration of an exact byte-value set (kernel-computable,
and the fixed order keeps the worklist deterministic). -/
def exactList (s : Finset (Fin 256)) : List (Fin 256) :=
  (List.finRange 256).filter (fun v => decide (v ∈ s))

/-- Modelled from the spec: successor worklist entries of a decoded
instruction, together with the unresolved-indirect-branch flag. Sequential
falls through; skips push both outcomes; jumps and system calls transfer
to nnn; calls push the callee and the fallthrough; returns, clear-screen
and unknown words terminate the path; an indirect jump with an exact set
pushes one entry per target nnn + v, and with Unknown pushes nothing and
reports the branch unresolved. -/
def succs (a : Nat) (r : RegisterValueSet) (w : Nat) : List Entry × Bool :=
  let r2 := regUpdate w r
  match decode w with
  | Kind.Sequential => ([⟨a + 2, r2⟩], false)
  | Kind.SkipConditional => ([⟨a + 2, r2⟩, ⟨a + 4, r2⟩], false)
  | Kind.JumpAbsolute => ([⟨nnn w, r2⟩], false)
  | Kind.SysCall => ([⟨nnn w, r2⟩], false)
  | Kind.Call => ([⟨nnn w, r2⟩, ⟨a + 2, r2⟩], false)
  | Kind.JumpIndirect =>
      match r2 with
      | RegisterValueSet.Exact s =>
          ((exactList s).map
            (fun v => ⟨nnn w + v.val, RegisterValueSet.Exact s⟩), false)
      | RegisterValueSet.Unknown => ([], true)
  | Kind.Return => ([], false)
  | Kind.ClearScreen => ([], false)
  | Kind.Unknown => ([], false)

/-- Processing of one popped entry: discard if visited, terminate the path
if the address has no image bytes, otherwise merge concurrently queued
register sets, decode, record, and push the successors. -/
def stepPop (img : List Nat) (base : Nat) (s : ExpState) (e : Entry)
    (rest : List Entry) : ExpState :=
  if e.addr ∈ s.visited then { s with worklist := rest }
  else
    match fetch img base e.addr with
    | none => { s with worklist := rest }
    | some w =>
      let pr := succs e.addr (mergeRegs e.addr e.regs rest) w
      { worklist := (rest.filter (fun e2 => !(e2.addr == e.addr))) ++ pr.1
        visited := e.addr :: s.visited
        program := s.program ++ [(e.addr, decode w)]
        unresolved := if pr.2 then s.unresolved ++ [e.addr] else s.unresolved }

/-- One explorer step: pop the head of the worklist (no-op on an empty
worklist). -/
def step (img : List Nat) (base : Nat) (s : ExpState) : ExpState :=
  match s.worklist with
  | [] => s
  | e :: rest => stepPop img base s e rest

/-- Initial explorer state: one worklist entry at the entry address, with
the tracked register unconstrained. -/
def initState (base : Nat) : ExpState :=
  ⟨[⟨base, RegisterValueSet.Unknown⟩], [], [], []⟩

/-- Runs the explorer a given number of pop steps from the initial state. -/
def run (img : List Nat) (base fuel : Nat) : ExpState :=
  (step img base)^[fuel] (initState base)

/-- Addresses of the image's addressable span. -/
def addrSpan (img : List Nat) (base : Nat) : List Nat :=
  (List.range img.length).map (base + ·)

/-- Modelled from the spec: the post-pass classifies as data every address
of the image span that the traversal did not decode. -/
def dataAddresses (img : List Nat) (base : Nat) (prog : List (Nat × Kind)) :
    List Nat :=
  (addrSpan img base).filter (fun a => !(prog.any (fun p => p.1 == a)))

/-! ### Shape lemmas for one explorer step -/

theorem step_eq_stepPop {img : List Nat} {base : Nat} {s : ExpState}
    {e : Entry} {rest : List Entry} (hw : s.worklist = e :: rest) :
    step img base s = stepPop img base s e rest := by
  unfold step
  rw [hw]

theorem stepPop_decode {img : List Nat} {base : Nat} {s : ExpState}
    {e : Entry} {rest : List Entry} {w : Nat}
    (hv : e.addr ∉ s.visited) (hf : fetch img base e.addr = some w) :
    stepPop img base s e rest =
      { worklist := (rest.filter (fun e2 => !(e2.addr == e.addr)))
          ++ (succs e.addr (mergeRegs e.addr e.regs rest) w).1
        visited := e.addr :: s.visited
        program := s.program ++ [(e.addr, decode w)]
        unresolved :=
          if (succs e.addr (mergeRegs e.addr e.regs rest) w).2 then
            s.unresolved ++ [e.addr]
          else s.unresolved } := by
  unfold stepPop
  rw [if_neg hv, hf]

theorem step_discard {img : List Nat} {base : Nat} {s : ExpState}
    {e : Entry} {rest : List Entry}
    (hw : s.worklist = e :: rest) (hv : e.addr ∈ s.visited) :
    step img base s = { s with worklist := rest } := by
  rw [step_eq_stepPop hw]
  unfold stepPop
  rw [if_pos hv]

theorem step_nofetch {img : List Nat} {base : Nat} {s : ExpState}
    {e : Entry} {rest : List Entry}
    (hw : s.worklist = e :: rest) (hv : e.addr ∉ s.visited)
    (hf : fetch img base e.addr = none) :
    step img base s = { s with worklist := rest } := by
  rw [step_eq_stepPop hw]
  unfold stepPop
  rw [if_neg hv, hf]

/-! ### Decoder facts used by the successor lemmas -/

theorem decode_u_skip {w : Nat} (h : decode w = Kind.SkipConditional) :
    u w = 3 ∨ u w = 4 ∨ u w = 5 ∨ u w = 9 ∨ u w = 14 := by
  have hu : u w < 16 := u_lt w
  unfold decode classifySpec at h
  set m := u w with hm
  interval_cases m <;>
    first
      | omega
      | (simp only [classifyFields, Option.getD_some, Option.getD_none] at h;
         first
           | omega
           | (split_ifs at h <;> simp_all)
           | simp_all)

theorem decode_u_call {w : Nat} (h : decode w = Kind.Call) : u w = 2 := by
  have hu : u w < 16 := u_lt w
  unfold decode classifySpec at h
  set m := u w with hm
  interval_cases m <;>
    first
      | omega
      | (simp only [classifyFields, Option.getD_some, Option.getD_none] at h;
         first
           | omega
           | (split_ifs at h <;> simp_all)
           | simp_all)

theorem decode_u_indirect {w : Nat} (h : decode w = Kind.JumpIndirect) :
    u w = 11 := by
  have hu : u w < 16 := u_lt w
  unfold decode classifySpec at h
  set m := u w with hm
  interval_cases m <;>
    first
      | omega
      | (simp only [classifyFields, Option.getD_some, Option.getD_none] at h;
         first
           | omega
           | (split_ifs at h <;> simp_all)
           | simp_all)

theorem regUpdate_id {w : Nat} (r : RegisterValueSet)
    (h6 : u w ≠ 6) (h7 : u w ≠ 7) (h8 : u w ≠ 8) (hc : u w ≠ 12)
    (hf : u w ≠ 15) : regUpdate w r = r := by
  unfold regUpdate
  split_ifs with h1 h2
  · exact absurd h1.1 h6
  · exfalso; omega
  · rfl

/-! ### Successor lemmas per control-transfer kind -/

theorem succs_skip {a : Nat} {r : RegisterValueSet} {w : Nat}
    (hd : decode w = Kind.SkipConditional) :
    succs a r w = ([⟨a + 2, r⟩, ⟨a + 4, r⟩], false) := by
  have hu := decode_u_skip hd
  have hr : regUpdate w r = r :=
    regUpdate_id r (by omega) (by omega) (by omega) (by omega) (by omega)
  unfold succs
  rw [hd, hr]

theorem succs_call {a : Nat} {r : RegisterValueSet} {w : Nat}
    (hd : decode w = Kind.Call) :
    succs a r w = ([⟨nnn w, r⟩, ⟨a + 2, r⟩], false) := by
  have hu := decode_u_call hd
  have hr : regUpdate w r = r :=
    regUpdate_id r (by omega) (by omega) (by omega) (by omega) (by omega)
  unfold succs
  rw [hd, hr]

theorem succs_indirect_exact {a : Nat} {w : Nat} {s0 : Finset (Fin 256)}
    (hd : decode w = Kind.JumpIndirect) :
    succs a (RegisterValueSet.Exact s0) w =
      ((exactList s0).map
        (fun v => ⟨nnn w + v.val, RegisterValueSet.Exact s0⟩), false) := by
  have hu := decode_u_indirect hd
  have hr : regUpdate w (RegisterValueSet.Exact s0) = RegisterValueSet.Exact s0 :=
    regUpdate_id _ (by omega) (by omega) (by omega) (by omega) (by omega)
  unfold succs
  rw [hd, hr]

theorem succs_indirect_unknown {a : Nat} {w : Nat}
    (hd : decode w = Kind.JumpIndirect) :
    succs a RegisterValueSet.Unknown w = ([], true) := by
  have hu := decode_u_indirect hd
  have hr : regUpdate w RegisterValueSet.Unknown = RegisterValueSet.Unknown :=
    regUpdate_id _ (by omega) (by omega) (by omega) (by omega) (by omega)
  unfold succs
  rw [hd, hr]

/-! ### The explicit successor-push theorems (claims C1 to C4) -/

/-- C1: a JumpIndirect instruction reached with an exact register value
set pushes exactly one worklist entry per target nnn + v (the pushed
addresses are pairwise distinct and are precisely the translated set
elements), and no unresolved-branch annotation is recorded. -/
theorem jumpIndirect_exact_targets (img : List Nat) (base : Nat)
    (st : ExpState) (a : Nat) (r : RegisterValueSet) (rest : List Entry)
    (w : Nat) (s0 : Finset (Fin 256))
    (hw : st.worklist = ⟨a, r⟩ :: rest) (hv : a ∉ st.visited)
    (hf : fetch img base a = some w) (hd : decode w = Kind.JumpIndirect)
    (hm : mergeRegs a r rest = RegisterValueSet.Exact s0) :
    (step img base st).worklist
      = (rest.filter (fun e => !(e.addr == a)))
        ++ (exactList s0).map
            (fun v => ⟨nnn w + v.val, RegisterValueSet.Exact s0⟩)
    ∧ ((exactList s0).map (fun v => nnn w + v.val)).Nodup
    ∧ (∀ t, t ∈ (exactList s0).map (fun v => nnn w + v.val)
        ↔ ∃ v ∈ s0, t = nnn w + v.val)
    ∧ (step img base st).unresolved = st.unresolved := by
  rw [step_eq_stepPop hw, stepPop_decode hv hf]
  refine ⟨?_, ?_, ?_, ?_⟩
  · simp only [hm, succs_indirect_exact hd]
  · exact ((List.nodup_finRange 256).filter _).map
      (fun v1 v2 hvv => Fin.val_injective (Nat.add_left_cancel hvv))
  · intro t
    simp only [exactList, List.mem_map, List.mem_filter, List.mem_finRange,
      true_and, decide_eq_true_eq]
    constructor
    · rintro ⟨v, hv2, rfl⟩
      exact ⟨v, hv2, rfl⟩
    · rintro ⟨v, hv2, rfl⟩
      exact ⟨v, hv2, rfl⟩
  · simp only [hm, succs_indirect_exact hd]
    rfl

/-- C2: a JumpIndirect instruction reached with the Unknown register set
pushes no successor, records the address as unresolved, and still records
the decoded instruction (the step function is total, so the run is never
aborted). -/
theorem jumpIndirect_unknown_unresolved (img : List Nat) (base : Nat)
    (st : ExpState) (a : Nat) (r : RegisterValueSet) (rest : List Entry)
    (w : Nat)
    (hw : st.worklist = ⟨a, r⟩ :: rest) (hv : a ∉ st.visited)
    (hf : fetch img base a = some w) (hd : decode w = Kind.JumpIndirect)
    (hm : mergeRegs a r rest = RegisterValueSet.Unknown) :
    (step img base st).worklist = rest.filter (fun e => !(e.addr == a))
    ∧ (step img base st).unresolved = st.unresolved ++ [a]
    ∧ (step img base st).program = st.program ++ [(a, Kind.JumpIndirect)] := by
  rw [step_eq_stepPop hw, stepPop_decode hv hf]
  refine ⟨?_, ?_, ?_⟩
  · simp only [hm, succs_indirect_unknown hd]
    simp
  · simp only [hm, succs_indirect_unknown hd]
    rfl
  · simp only [hd]

/-- C3: a SkipConditional instruction at addr pushes both successor
entries, addr + 2 and addr + 4, with the register set carried unchanged. -/
theorem skipConditional_pushes_both (img : List Nat) (base : Nat)
    (st : ExpState) (a : Nat) (r : RegisterValueSet) (rest : List Entry)
    (w : Nat)
    (hw : st.worklist = ⟨a, r⟩ :: rest) (hv : a ∉ st.visited)
    (hf : fetch img base a = some w) (hd : decode w = Kind.SkipConditional) :
    (step img base st).worklist
      = (rest.filter (fun e => !(e.addr == a)))
        ++ [⟨a + 2, mergeRegs a r rest⟩, ⟨a + 4, mergeRegs a r rest⟩] := by
  rw [step_eq_stepPop hw, stepPop_decode hv hf]
  simp only [succs_skip hd]

/-- C4: a Call instruction at addr pushes both the callee entry at nnn and
the fallthrough entry at addr + 2, with the register set carried
unchanged. -/
theorem call_pushes_callee_and_fallthrough (img : List Nat) (base : Nat)
    (st : ExpState) (a : Nat) (r : RegisterValueSet) (rest : List Entry)
    (w : Nat)
    (hw : st.worklist = ⟨a, r⟩ :: rest) (hv : a ∉ st.visited)
    (hf : fetch img base a = some w) (hd : decode w = Kind.Call) :
    (step img base st).worklist
      = (rest.filter (fun e => !(e.addr == a)))
        ++ [⟨nnn w, mergeRegs a r rest⟩, ⟨a + 2, mergeRegs a r rest⟩] := by
  rw [step_eq_stepPop hw, stepPop_decode hv hf]
  simp only [succs_call hd]

/-! ### Concrete images for the spec's acceptance tests -/

/-- Image of the register-resolution test: load literal 5 into V0 at
0x200, indirect jump to 0x210 + V0 at 0x202, and a return instruction at
the resolved target 0x215. -/
def imgA : List Nat :=
  [0x60, 0x05, 0xB2, 0x10,
   0, 0, 0, 0, 0, 0, 0, 0, 0, 0, 0, 0, 0, 0, 0, 0, 0,
   0x00, 0xEE]

/-- Image of the call-continuation test: call 0x208 at 0x200, a return at
the fallthrough 0x202, and a return at the callee 0x208. -/
def imgB : List Nat :=
  [0x22, 0x08, 0x00, 0xEE, 0x00, 0x00, 0x00, 0x00, 0x00, 0xEE]

/-- Two-byte image holding a single skip instruction. -/
def imgC : List Nat := [0x30, 0x00]

/-- Image of the unresolved-indirect test: load a literal into V1 (not the
tracked register), copy V1 into V0 (a non-literal source), then jump
indirect. -/
def imgD : List Nat := [0x61, 0x05, 0x80, 0x10, 0xB2, 0x00]

/-- Explorer state of the imgA run just before the indirect jump at 0x202
is popped. -/
def stA1 : ExpState := run imgA 0x200 1

/-- Explorer state of the imgD run just before the indirect jump at 0x204
is popped. -/
def stD2 : ExpState := run imgD 0x200 2

/-- Witness for C1: on the spec's register-resolution image the indirect
jump at 0x202 is reached with the exact set from the literal load, the
step pushes exactly the single target 0x215, the traversal continues
there, and no unresolved annotation is recorded. -/
theorem jumpIndirect_exact_targets_w :
    (stA1.worklist = ⟨0x202, RegisterValueSet.Exact {5}⟩ :: []
      ∧ 0x202 ∉ stA1.visited
      ∧ fetch imgA 0x200 0x202 = some 0xB210
      ∧ decode 0xB210 = Kind.JumpIndirect
      ∧ mergeRegs 0x202 (RegisterValueSet.Exact {5}) []
          = RegisterValueSet.Exact {5})
    ∧ (step imgA 0x200 stA1).worklist
        = (List.filter (fun e => !(e.addr == 0x202)) [])
          ++ (exactList {5}).map
              (fun v => ⟨nnn 0xB210 + v.val, RegisterValueSet.Exact {5}⟩)
    ∧ (step imgA 0x200 stA1).unresolved = stA1.unresolved
    ∧ (run imgA 0x200 4).program.map Prod.fst = [0x200, 0x202, 0x215]
    ∧ (run imgA 0x200 4).unresolved = []
    ∧ (run imgA 0x200 4).worklist = [] := by
  have h := jumpIndirect_exact_targets imgA 0x200 stA1 0x202
    (RegisterValueSet.Exact {5}) [] 0xB210 {5}
    (by decide) (by decide) (by decide) (by decide) (by decide)
  exact ⟨⟨by decide, by decide, by decide, by decide, by decide⟩,
    h.1, h.2.2.2, by decide, by decide, by decide⟩

/-- Witness for C2: on the unresolved-indirect image the tracked register
reaches the indirect jump as Unknown (it was copied from another
register), the branch is recorded unresolved, no successor is pushed, and
the run still completes with the worklist empty. -/
theorem jumpIndirect_unknown_unresolved_w :
    (stD2.worklist = ⟨0x204, RegisterValueSet.Unknown⟩ :: []
      ∧ 0x204 ∉ stD2.visited
      ∧ fetch imgD 0x200 0x204 = some 0xB200
      ∧ decode 0xB200 = Kind.JumpIndirect
      ∧ mergeRegs 0x204 RegisterValueSet.Unknown [] = RegisterValueSet.Unknown)
    ∧ (step imgD 0x200 stD2).worklist
        = List.filter (fun e => !(e.addr == 0x204)) []
    ∧ (step imgD 0x200 stD2).unresolved = stD2.unresolved ++ [0x204]
    ∧ (step imgD 0x200 stD2).program = stD2.program ++ [(0x204, Kind.JumpIndirect)]
    ∧ (run imgD 0x200 4).unresolved = [0x204]
    ∧ (run imgD 0x200 4).worklist = []
    ∧ (run imgD 0x200 4).program.map Prod.fst = [0x200, 0x202, 0x204] := by
  have h := jumpIndirect_unknown_unresolved imgD 0x200 stD2 0x204
    RegisterValueSet.Unknown [] 0xB200
    (by decide) (by decide) (by decide) (by decide) (by decide)
  exact ⟨⟨by decide, by decide, by decide, by decide, by decide⟩,
    h.1, h.2.1, h.2.2, by decide, by decide, by decide⟩

/-- Witness for C3: on the single-skip image the skip at 0x200 pushes both
0x202 and 0x204. -/
theorem skipConditional_pushes_both_w :
    ((initState 0x200).worklist = ⟨0x200, RegisterValueSet.Unknown⟩ :: []
      ∧ 0x200 ∉ (initState 0x200).visited
      ∧ fetch imgC 0x200 0x200 = some 0x3000
      ∧ decode 0x3000 = Kind.SkipConditional)
    ∧ (step imgC 0x200 (initState 0x200)).worklist
        = (List.filter (fun e => !(e.addr == 0x200)) [])
          ++ [⟨0x202, mergeRegs 0x200 RegisterValueSet.Unknown []⟩,
              ⟨0x204, mergeRegs 0x200 RegisterValueSet.Unknown []⟩] :=
  ⟨⟨by decide, by decide, by decide, by decide⟩,
    skipConditional_pushes_both imgC 0x200 (initState 0x200) 0x200
      RegisterValueSet.Unknown [] 0x3000
      (by decide) (by decide) (by decide) (by decide)⟩

/-- Witness for C4: on the call-continuation image the call at 0x200
pushes both the callee 0x208 and the fallthrough 0x202; both end up as
keys of the decoded program, and the Return popped at 0x208 pushes
nothing (after that pop the worklist holds only the pre-existing 0x202
entry). -/
theorem call_pushes_callee_and_fallthrough_w :
    ((initState 0x200).worklist = ⟨0x200, RegisterValueSet.Unknown⟩ :: []
      ∧ 0x200 ∉ (initState 0x200).visited
      ∧ fetch imgB 0x200 0x200 = some 0x2208
      ∧ decode 0x2208 = Kind.Call)
    ∧ (step imgB 0x200 (initState 0x200)).worklist
        = (List.filter (fun e => !(e.addr == 0x200)) [])
          ++ [⟨nnn 0x2208, mergeRegs 0x200 RegisterValueSet.Unknown []⟩,
              ⟨0x202, mergeRegs 0x200 RegisterValueSet.Unknown []⟩]
    ∧ (run imgB 0x200 5).program.map Prod.fst = [0x200, 0x208, 0x202]
    ∧ (run imgB 0x200 2).worklist = [⟨0x202, RegisterValueSet.Unknown⟩]
    ∧ (run imgB 0x200 5).worklist = [] :=
  ⟨⟨by decide, by decide, by decide, by decide⟩,
    call_pushes_callee_and_fallthrough imgB 0x200 (initState 0x200) 0x200
      RegisterValueSet.Unknown [] 0x2208
      (by decide) (by decide) (by decide) (by decide),
    by decide, by decide, by decide⟩

/-! ### Termination of the worklist traversal (claim C9) -/

/-- Number of span addresses not yet visited. -/
def unvisitedCount (img : List Nat) (base : Nat) (vis : List Nat) : Nat :=
  ((addrSpan img base).filter (fun b => !(vis.contains b))).length

/-- Potential of an explorer state: worklist entries plus a weighted count
of the unvisited span addresses. Every pop strictly decreases it. -/
def potential (img : List Nat) (base : Nat) (s : ExpState) : Nat :=
  s.worklist.length + 257 * unvisitedCount img base s.visited

theorem succs_len (a : Nat) (r : RegisterValueSet) (w : Nat) :
    (succs a r w).1.length ≤ 256 := by
  unfold succs
  cases hd : decode w <;> simp only [hd] <;> try simp
  cases hr : regUpdate w r <;> simp only [hr]
  · rename_i s
    simp only [List.length_map, exactList]
    have h1 := List.length_filter_le (fun v => decide (v ∈ s)) (List.finRange 256)
    simpa using h1
  · simp

theorem filter_length_mono {α : Type} (p q : α → Bool) (l : List α)
    (h : ∀ b, p b = true → q b = true) :
    (l.filter p).length ≤ (l.filter q).length := by
  induction l with
  | nil => simp
  | cons c cs ih =>
    by_cases hc : p c = true
    · rw [List.filter_cons_of_pos hc, List.filter_cons_of_pos (h c hc)]
      simpa using ih
    · rw [List.filter_cons_of_neg (by simpa using hc)]
      by_cases hq : q c = true
      · rw [List.filter_cons_of_pos hq]
        exact le_trans ih (by simp)
      · rw [List.filter_cons_of_neg (by simpa using hq)]
        exact ih

theorem contains_true {vis : List Nat} {b : Nat} :
    vis.contains b = true ↔ b ∈ vis := List.elem_iff

theorem contains_cons_mono {vis : List Nat} {a : Nat} :
    ∀ b, (!((a :: vis).contains b)) = true → (!(vis.contains b)) = true := by
  intro b hb
  cases hcv : vis.contains b
  · rfl
  · exfalso
    have hbv : b ∈ vis := contains_true.mp hcv
    have hba : (a :: vis).contains b = true :=
      contains_true.mpr (List.mem_cons_of_mem a hbv)
    rw [hba] at hb
    simp at hb

theorem filter_length_lt {l : List Nat} {vis : List Nat} {a : Nat}
    (hmem : a ∈ l) (hnv : a ∉ vis) :
    (l.filter (fun b => !((a :: vis).contains b))).length
      < (l.filter (fun b => !(vis.contains b))).length := by
  induction l with
  | nil => cases hmem
  | cons c cs ih =>
    by_cases hca : c = a
    · subst hca
      have hL : ((c :: vis).contains c) = true :=
        contains_true.mpr (List.mem_cons_self c vis)
      have hR : (vis.contains c) = false := by
        cases hcv : vis.contains c
        · rfl
        · exact absurd (contains_true.mp hcv) hnv
      have hmono := filter_length_mono (fun b => !((c :: vis).contains b))
        (fun b => !(vis.contains b)) cs contains_cons_mono
      simp only [List.filter_cons, hL, hR, Bool.not_true, Bool.not_false,
        Bool.false_eq_true, if_false, if_true, List.length_cons]
      omega
    · have hm2 : a ∈ cs := by
        rcases List.mem_cons.mp hmem with h1 | h1
        · exact absurd h1.symm hca
        · exact h1
      by_cases hpc : ((a :: vis).contains c) = true
      · have hcv : (vis.contains c) = true := by
          rcases List.mem_cons.mp (contains_true.mp hpc) with h5 | h5
          · exact absurd h5 hca
          · exact contains_true.mpr h5
        have h := ih hm2
        simp only [List.filter_cons, hpc, hcv, Bool.not_true,
          Bool.false_eq_true, if_false]
        omega
      · have hpc2 : ((a :: vis).contains c) = false := by
          cases h7 : (a :: vis).contains c
          · rfl
          · exact absurd h7 hpc
        have hcv : (vis.contains c) = false := by
          cases h6 : vis.contains c
          · rfl
          · exact absurd
              (contains_true.mpr (List.mem_cons_of_mem a (contains_true.mp h6)))
              hpc
        have h := ih hm2
        simp only [List.filter_cons, hpc2, hcv, Bool.not_false, if_true,
          List.length_cons]
        omega

theorem fetch_mem {img : List Nat} {base a w : Nat}
    (h : fetch img base a = some w) : a ∈ addrSpan img base := by
  unfold fetch at h
  split_ifs at h with hc
  · obtain ⟨h1, h2⟩ := hc
    unfold addrSpan
    exact List.mem_map.mpr ⟨a - base, List.mem_range.mpr (by omega), by omega⟩

theorem empty_stays (img : List Nat) (base : Nat) (s : ExpState)
    (h : s.worklist = []) : step img base s = s := by
  unfold step
  rw [h]

theorem iterate_empty (img : List Nat) (base : Nat) (s : ExpState)
    (h : s.worklist = []) (k : Nat) : (step img base)^[k] s = s := by
  induction k with
  | zero => rfl
  | succ k2 ih => rw [Function.iterate_succ_apply, empty_stays img base s h, ih]

theorem potential_step_lt (img : List Nat) (base : Nat) (s : ExpState)
    (hne : s.worklist ≠ []) :
    potential img base (step img base s) < potential img base s := by
  cases hwl : s.worklist with
  | nil => exact absurd hwl hne
  | cons e rest =>
    by_cases hv : e.addr ∈ s.visited
    · rw [step_discard hwl hv]
      unfold potential
      rw [hwl]
      simp
    · cases hf : fetch img base e.addr with
      | none =>
        rw [step_nofetch hwl hv hf]
        unfold potential
        rw [hwl]
        simp
      | some w =>
        rw [step_eq_stepPop hwl, stepPop_decode hv hf]
        unfold potential
        dsimp only
        have h1 : (rest.filter (fun e2 => !(e2.addr == e.addr))).length
            ≤ rest.length := List.length_filter_le _ _
        have h2 := succs_len e.addr (mergeRegs e.addr e.regs rest) w
        have h3 : unvisitedCount img base (e.addr :: s.visited)
            < unvisitedCount img base s.visited :=
          filter_length_lt (fetch_mem hf) hv
        rw [hwl]
        simp only [List.length_append, List.length_cons]
        omega

theorem run_empty_of_potential (img : List Nat) (base : Nat) :
    ∀ (k : Nat) (s : ExpState), potential img base s ≤ k →
      ((step img base)^[k] s).worklist = [] := by
  intro k
  induction k with
  | zero =>
    intro s hs
    unfold potential at hs
    have h0 : s.worklist.length = 0 := by omega
    simpa using List.length_eq_zero.mp h0
  | succ k2 ih =>
    intro s hs
    by_cases h : s.worklist = []
    · rw [Function.iterate_succ_apply, empty_stays img base s h,
        iterate_empty img base s h]
      exact h
    · rw [Function.iterate_succ_apply]
      exact ih (step img base s)
        (by have := potential_step_lt img base s h; omega)

/-- C9 (amended): for every finite input image, including ones whose
control flow contains jump or call cycles, the worklist is empty after
1 + 257 * image_length pop steps: the visited set grows at every decoding
pop, the address space is finite, and each decode pushes at most 256
successors. -/
theorem worklist_terminates (img : List Nat) (base : Nat) :
    (((step img base)^[1 + 257 * img.length]) (initState base)).worklist = [] := by
  apply run_empty_of_potential
  unfold potential initState unvisitedCount
  have h2 := List.length_filter_le (fun b => !(List.contains [] b))
    (addrSpan img base)
  have h3 : (addrSpan img base).length = img.length := by
    unfold addrSpan
    simp
  simp only [List.length_cons, List.length_nil]
  omega

/-- C9 counterexample: on the two-byte image holding a single skip
instruction the worklist is not yet empty after image_length (= 2) pop
steps; it takes 3 pops (the decode of the skip plus the discarding of its
two out-of-image successors) to drain. -/
theorem worklist_image_length_cx :
    imgC.length = 2
    ∧ (((step imgC 0x200)^[imgC.length]) (initState 0x200)).worklist ≠ []
    ∧ (((step imgC 0x200)^[3]) (initState 0x200)).worklist = [] :=
  ⟨rfl, by decide, by decide⟩

/-! ### Soundness of the code/data split (claim C7) -/

/-- Reachability through successor edges from the entry address, mirroring
exactly what the explorer can push: the entry context, one successor step
of a fetched and decoded instruction, and the register-set merge performed
for concurrently queued entries. -/
inductive Reach (img : List Nat) (base : Nat) : Nat → RegisterValueSet → Prop where
  | entry : Reach img base base RegisterValueSet.Unknown
  | succ {a : Nat} {r : RegisterValueSet} {w b : Nat} {r2 : RegisterValueSet} :
      Reach img base a r → fetch img base a = some w →
      (⟨b, r2⟩ : Entry) ∈ (succs a r w).1 → Reach img base b r2
  | merge {a : Nat} {r1 r2 : RegisterValueSet} :
      Reach img base a r1 → Reach img base a r2 →
      Reach img base a (join r1 r2)

/-- Explorer invariant: every queued entry and every decoded address is
reachable. -/
def Inv (img : List Nat) (base : Nat) (s : ExpState) : Prop :=
  (∀ e ∈ s.worklist, Reach img base e.addr e.regs)
  ∧ (∀ p ∈ s.program, ∃ r, Reach img base p.1 r)

theorem reach_foldl_join {img : List Nat} {base : Nat} {a : Nat}
    (l : List Entry) :
    ∀ r, Reach img base a r →
      (∀ e ∈ l, e.addr = a ∧ Reach img base e.addr e.regs) →
      Reach img base a (l.foldl (fun acc e => join acc e.regs) r) := by
  induction l with
  | nil =>
    intro r hr _
    simpa using hr
  | cons e es ih =>
    intro r hr hl
    simp only [List.foldl_cons]
    apply ih
    · have he := hl e (List.mem_cons_self e es)
      have h2 : Reach img base a e.regs := by
        rw [← he.1]
        exact he.2
      exact Reach.merge hr h2
    · intro e2 he2
      exact hl e2 (List.mem_cons_of_mem e he2)

theorem reach_mergeRegs {img : List Nat} {base : Nat} {a : Nat}
    {r : RegisterValueSet} {rest : List Entry}
    (h : Reach img base a r)
    (hrest : ∀ e ∈ rest, Reach img base e.addr e.regs) :
    Reach img base a (mergeRegs a r rest) := by
  unfold mergeRegs
  apply reach_foldl_join _ r h
  intro e he
  have h1 := List.mem_filter.mp he
  exact ⟨by simpa using h1.2, hrest e h1.1⟩

theorem inv_init (img : List Nat) (base : Nat) : Inv img base (initState base) := by
  constructor
  · intro e he
    have he2 : e = ⟨base, RegisterValueSet.Unknown⟩ := by simpa [initState] using he
    rw [he2]
    exact Reach.entry
  · intro p hp
    simp [initState] at hp

theorem inv_step {img : List Nat} {base : Nat} {s : ExpState}
    (h : Inv img base s) : Inv img base (step img base s) := by
  cases hwl : s.worklist with
  | nil =>
    rw [empty_stays img base s hwl]
    exact h
  | cons e rest =>
    have hre : Reach img base e.addr e.regs :=
      h.1 e (by rw [hwl]; exact List.mem_cons_self e rest)
    have hrest : ∀ e2 ∈ rest, Reach img base e2.addr e2.regs := by
      intro e2 he2
      exact h.1 e2 (by rw [hwl]; exact List.mem_cons_of_mem e he2)
    by_cases hv : e.addr ∈ s.visited
    · rw [step_discard hwl hv]
      exact ⟨hrest, h.2⟩
    · cases hf : fetch img base e.addr with
      | none =>
        rw [step_nofetch hwl hv hf]
        exact ⟨hrest, h.2⟩
      | some w =>
        rw [step_eq_stepPop hwl, stepPop_decode hv hf]
        have hm : Reach img base e.addr (mergeRegs e.addr e.regs rest) :=
          reach_mergeRegs hre hrest
        constructor
        · intro e2 he2
          rcases List.mem_append.mp he2 with h1 | h2
          · exact hrest e2 (List.mem_of_mem_filter h1)
          · exact Reach.succ hm hf h2
        · intro p hp
          rcases List.mem_append.mp hp with h1 | h2
          · exact h.2 p h1
          · have hp2 : p = (e.addr, decode w) := by simpa using h2
            rw [hp2]
            exact ⟨mergeRegs e.addr e.regs rest, hm⟩

theorem run_inv (img : List Nat) (base : Nat) (fuel : Nat) :
    Inv img base (run img base fuel) := by
  induction fuel with
  | zero => exact inv_init img base
  | succ k ih =>
    rw [run, Function.iterate_succ_apply']
    exact inv_step ih

/-- C7: every address decoded by the explorer run was reached through a
chain of successor edges from the entry address, and every address of the
image span that is not a program key is classified as data by the
post-pass. -/
theorem decoded_reachable_and_data (img : List Nat) (base fuel a : Nat) :
    ((∃ p ∈ (run img base fuel).program, p.1 = a) → ∃ r, Reach img base a r)
    ∧ (base ≤ a → a < base + img.length →
        (∀ p ∈ (run img base fuel).program, p.1 ≠ a) →
        a ∈ dataAddresses img base ((run img base fuel).program)) := by
  constructor
  · rintro ⟨p, hp, rfl⟩
    exact (run_inv img base fuel).2 p hp
  · intro h1 h2 h3
    unfold dataAddresses
    refine List.mem_filter.mpr ⟨?_, ?_⟩
    · unfold addrSpan
      exact List.mem_map.mpr ⟨a - base, List.mem_range.mpr (by omega), by omega⟩
    · rw [Bool.not_eq_true', List.any_eq_false]
      intro p hp
      simpa using h3 p hp

/-- Witness for C7 on the call-continuation image: the decoded callee
address 0x208 is a program key and is reachable, while the never-reached
span address 0x204 is not a key and lands in the data classification. -/
theorem decoded_reachable_and_data_w :
    (∃ p ∈ (run imgB 0x200 5).program, p.1 = 0x208)
    ∧ (∃ r, Reach imgB 0x200 0x208 r)
    ∧ ((0x200 : Nat) ≤ 0x204 ∧ (0x204 : Nat) < 0x200 + imgB.length
        ∧ (∀ p ∈ (run imgB 0x200 5).program, p.1 ≠ 0x204))
    ∧ 0x204 ∈ dataAddresses imgB 0x200 ((run imgB 0x200 5).program) :=
  ⟨by decide,
    (decoded_reachable_and_data imgB 0x200 5 0x208).1 (by decide),
    ⟨by decide, by decide, by decide⟩,
    (decoded_reachable_and_data imgB 0x200 5 0x204).2 (by decide) (by decide)
      (by decide)⟩

end CHIP8
